import Mathlib

/-!
Shallow embedding of the exact-fallback decimal-to-binary conversion core of
boost charconv (files `detail/emulated128.hpp` and
`detail/fast_float/digit_comparison.hpp`), together with theorems settling
the specification claims about it.

Machine integers are embedded as `Nat` with an explicit `% 2 ^ w` wherever the
C++ unsigned arithmetic can wrap; `std::int32_t` quantities that never
overflow in the modelled code paths are embedded as `Int`.
-/

namespace Charconv

/-- Embedding of `boost::charconv::detail::uint128`: a 128-bit unsigned
integer stored as two 64-bit halves. -/
@[ext]
structure uint128 where
  high : Nat
  low : Nat
deriving DecidableEq, Repr

/-- Mathematical value of a `uint128`: `high * 2^64 + low`. -/
def uint128.val (a : uint128) : Nat := a.high * 2 ^ 64 + a.low

/-- Embedding of `uint128::operator+=(std::uint64_t n)`, portable fallback
branch: manual wrap check `sum < low` decides the carry into `high`. -/
def uint128.addAssign (a : uint128) (n : Nat) : uint128 :=
  let sum := (a.low + n) % 2 ^ 64
  { high := (a.high + if sum < a.low then 1 else 0) % 2 ^ 64, low := sum }

/-- Embedding of `uint128::operator+=` in the `__builtin_addcll` branch: the
intrinsic returns the 64-bit sum and a carry-out, and the carry is fed into a
second add-with-carry on `high`. -/
def uint128.addAssignAddcll (a : uint128) (n : Nat) : uint128 :=
  let carry := (a.low + n) / 2 ^ 64
  { high := (a.high + 0 + carry) % 2 ^ 64, low := (a.low + n) % 2 ^ 64 }

/-- Embedding of `uint128::operator+=` in the `__builtin_ia32_addcarryx_u64`
and MSVC `_addcarry_u64` branches: the carry flag is set exactly when the
64-bit addition of the low halves wrapped. -/
def uint128.addAssignAddcarry (a : uint128) (n : Nat) : uint128 :=
  let result := (a.low + n) % 2 ^ 64
  let carry := if 2 ^ 64 ≤ a.low + n then 1 else 0
  { high := (a.high + 0 + carry) % 2 ^ 64, low := result }

/-- Embedding of `umul64`: 32 x 32 -> 64 product (exact, never wraps for
32-bit inputs). -/
def umul64 (x y : Nat) : Nat := x * y

/-- Embedding of `umul128`, portable four-way 32-bit decomposition branch. -/
def umul128 (x y : Nat) : uint128 :=
  let a := (x >>> 32) % 2 ^ 32
  let b := x % 2 ^ 32
  let c := (y >>> 32) % 2 ^ 32
  let d := y % 2 ^ 32
  let ac := umul64 a c
  let bc := umul64 b c
  let ad := umul64 a d
  let bd := umul64 b d
  let intermediate := ((bd >>> 32) + ad % 2 ^ 32 + bc % 2 ^ 32) % 2 ^ 64
  { high := (ac + (intermediate >>> 32) + (ad >>> 32) + (bc >>> 32)) % 2 ^ 64,
    low := ((intermediate <<< 32) % 2 ^ 64 + bd % 2 ^ 32) % 2 ^ 64 }

/-- Embedding of `umul128` in the native `__int128` branch: the full product
is formed and split into its two 64-bit halves. -/
def umul128Native (x y : Nat) : uint128 :=
  let result := x * y
  { high := (result >>> 64) % 2 ^ 64, low := result % 2 ^ 64 }

/-- Embedding of `umul128` in the ARM `__umulh` branch: the high half comes
from the `umulh` instruction, the low half from the wrapping 64-bit product. -/
def umul128Arm (x y : Nat) : uint128 :=
  { high := (x * y / 2 ^ 64) % 2 ^ 64, low := x * y % 2 ^ 64 }

/-- Embedding of `umul128_upper64`, portable decomposition branch. -/
def umul128_upper64 (x y : Nat) : Nat :=
  let a := (x >>> 32) % 2 ^ 32
  let b := x % 2 ^ 32
  let c := (y >>> 32) % 2 ^ 32
  let d := y % 2 ^ 32
  let ac := umul64 a c
  let bc := umul64 b c
  let ad := umul64 a d
  let bd := umul64 b d
  let intermediate := ((bd >>> 32) + ad % 2 ^ 32 + bc % 2 ^ 32) % 2 ^ 64
  (ac + (intermediate >>> 32) + (ad >>> 32) + (bc >>> 32)) % 2 ^ 64

/-- Embedding of `umul192_upper128`: `umul128(x, y.high)` plus (with carry)
`umul128_upper64(x, y.low)`. -/
def umul192_upper128 (x : Nat) (y : uint128) : uint128 :=
  let r := umul128 x y.high
  r.addAssign (umul128_upper64 x y.low)

/-- Embedding of `adjusted_mantissa`: value is `mantissa * 2 ^ power2`; the
64-bit mantissa is a `Nat`, the `std::int32_t` exponent an `Int`. -/
structure adjusted_mantissa where
  mantissa : Nat
  power2 : Int
deriving DecidableEq, Repr

/-- Modelled from the spec: the compile-time `BinaryFormat<T>` constant set
(spec, section 3); `float_common.hpp` is not part of the given source core. -/
structure binary_format where
  mantissa_explicit_bits : Nat
  minimum_exponent : Int
  infinite_power : Int
  exponent_mask : Nat
  mantissa_mask : Nat
  hidden_bit_mask : Nat
  max_digits : Nat
deriving DecidableEq, Repr

/-- Modelled from the spec: `BinaryFormat<double>` — the IEEE-754
double-precision constants (52 explicit mantissa bits, minimum exponent
-1023, infinite-power sentinel 0x7FF, the three field masks, and 769 maximum
decimal digits). -/
def fmt64 : binary_format :=
  { mantissa_explicit_bits := 52
    minimum_exponent := -1023
    infinite_power := 0x7FF
    exponent_mask := 0x7FF0000000000000
    mantissa_mask := 0x000FFFFFFFFFFFFF
    hidden_bit_mask := 0x0010000000000000
    max_digits := 769 }

/-- Discard mask of `round_nearest_tie_even`: `(shift == 64) ? UINT64_MAX :
(1 << shift) - 1`. -/
def rnteMask (shift : Int) : Nat :=
  if shift = 64 then 2 ^ 64 - 1 else 2 ^ shift.toNat - 1

/-- Halfway constant of `round_nearest_tie_even`: `(shift == 0) ? 0 :
1 << (shift - 1)`. -/
def rnteHalfway (shift : Int) : Nat :=
  if shift = 0 then 0 else 2 ^ (shift.toNat - 1)

/-- Embedding of `round_nearest_tie_even`: classifies the discarded low bits
against the halfway point, shifts (with the `shift == 64` special case),
bumps `power2` by `shift`, and adds the callback's rounding bit. -/
def round_nearest_tie_even (am : adjusted_mantissa) (shift : Int)
    (cb : Bool → Bool → Bool → Bool) : adjusted_mantissa :=
  let mask := rnteMask shift
  let halfway := rnteHalfway shift
  let truncated_bits := am.mantissa &&& mask
  let is_above := decide (halfway < truncated_bits)
  let is_halfway := decide (truncated_bits = halfway)
  let m := if shift = 64 then 0 else am.mantissa >>> shift.toNat
  let is_odd := decide (m &&& 1 = 1)
  { mantissa := (m + if cb is_odd is_halfway is_above then 1 else 0) % 2 ^ 64,
    power2 := am.power2 + shift }

/-- Embedding of `round_down`: unconditional truncating shift with the
`shift == 64` special case. -/
def round_down (am : adjusted_mantissa) (shift : Int) : adjusted_mantissa :=
  { mantissa := if shift = 64 then 0 else am.mantissa >>> shift.toNat,
    power2 := am.power2 + shift }

/-- Embedding of `round<T>(am, cb)`: denormal regime clamps the shift to 64
and sets `power2` to 0 or 1; normal regime shifts by `64 - explicit_bits - 1`,
handles mantissa carry into the next binade, masks off the hidden bit
(`&= ~(1 << explicit_bits)`), and clamps overflow to the infinite-power
sentinel. -/
def roundF (fmt : binary_format) (am : adjusted_mantissa)
    (cb : adjusted_mantissa → Int → adjusted_mantissa) : adjusted_mantissa :=
  let mantissa_shift : Int := 64 - fmt.mantissa_explicit_bits - 1
  if mantissa_shift ≤ -am.power2 then
    let shift : Int := -am.power2 + 1
    let am1 := cb am (min shift 64)
    { mantissa := am1.mantissa,
      power2 := if am1.mantissa < 2 ^ fmt.mantissa_explicit_bits then 0 else 1 }
  else
    let am1 := cb am mantissa_shift
    let am2 :=
      if (2 <<< fmt.mantissa_explicit_bits) % 2 ^ 64 ≤ am1.mantissa then
        { mantissa := 2 ^ fmt.mantissa_explicit_bits, power2 := am1.power2 + 1 }
      else am1
    let am3 := { mantissa := am2.mantissa &&& (2 ^ 64 - 1 - 2 ^ fmt.mantissa_explicit_bits),
                 power2 := am2.power2 }
    if fmt.infinite_power ≤ am3.power2 then
      { mantissa := 0, power2 := fmt.infinite_power }
    else am3

/-- Statement of the specification's wording for the normal-regime
post-processing of `round` (claim C4): carry reset into the next binade when
the retained mantissa reaches `2^(explicit_bits+1)`, hidden-bit mask, and
overflow-to-infinity clamp once `power2` has reached the infinite-power
sentinel. Applied to the result of the callback shift. -/
def roundNormalSpec (fmt : binary_format) (am : adjusted_mantissa) : adjusted_mantissa :=
  let am1 :=
    if 2 ^ (fmt.mantissa_explicit_bits + 1) ≤ am.mantissa then
      { mantissa := 2 ^ fmt.mantissa_explicit_bits, power2 := am.power2 + 1 }
    else am
  let am2 := { mantissa := am1.mantissa &&& (2 ^ 64 - 1 - 2 ^ fmt.mantissa_explicit_bits),
               power2 := am1.power2 }
  if fmt.infinite_power ≤ am2.power2 then
    { mantissa := 0, power2 := fmt.infinite_power }
  else am2

/-- Embedding of the first loop of `scientific_exponent`: divide by 10000
while at least 10000, adding 4 to the exponent. -/
def sciLoop10000 (m : Nat) (e : Int) : Nat × Int :=
  if h : 10000 ≤ m then sciLoop10000 (m / 10000) (e + 4) else (m, e)
termination_by m
decreasing_by exact Nat.div_lt_self (by omega) (by norm_num)

/-- Embedding of the second loop of `scientific_exponent`: divide by 100
while at least 100, adding 2 to the exponent. -/
def sciLoop100 (m : Nat) (e : Int) : Nat × Int :=
  if h : 100 ≤ m then sciLoop100 (m / 100) (e + 2) else (m, e)
termination_by m
decreasing_by exact Nat.div_lt_self (by omega) (by norm_num)

/-- Embedding of the third loop of `scientific_exponent`: divide by 10 while
at least 10, adding 1 to the exponent. -/
def sciLoop10 (m : Nat) (e : Int) : Nat × Int :=
  if h : 10 ≤ m then sciLoop10 (m / 10) (e + 1) else (m, e)
termination_by m
decreasing_by exact Nat.div_lt_self (by omega) (by norm_num)

/-- Embedding of `scientific_exponent`: run the three divide loops on the
truncated 64-bit mantissa and the decimal exponent. -/
def scientific_exponent (mantissa : Nat) (exponent : Int) : Int :=
  let p1 := sciLoop10000 mantissa exponent
  let p2 := sciLoop100 p1.1 p1.2
  let p3 := sciLoop10 p2.1 p2.2
  p3.2

/-- Embedding of the `powers_of_ten_uint64` table (1e0 to 1e19). -/
def powers_of_ten_uint64 : List Nat :=
  [1, 10, 100, 1000, 10000, 100000, 1000000, 10000000, 100000000, 1000000000,
   10000000000, 100000000000, 1000000000000, 10000000000000, 100000000000000,
   1000000000000000, 10000000000000000, 100000000000000000, 1000000000000000000,
   10000000000000000000]

/-- Embedding of `parse_one_digit`: append one decimal digit value to the
64-bit limb accumulator (wrapping at 2^64 like the `limb` type). -/
def parse_one_digit (value d : Nat) : Nat := (value * 10 + d) % 2 ^ 64

/-- Embedding of `add_native`: fold a limb group into the big integer.
Modelled from the spec: the big-integer collaborator is represented by its
exact numeric value; `mul` and `add` are exact (a capacity overflow is
asserted fatal in the source, never wrapped). -/
def add_native (big power value : Nat) : Nat := big * power + value

/-- Embedding of `round_up_bigint`: `add_native(big, 10, 1)` and one more
counted digit. -/
def round_up_bigint (big count : Nat) : Nat × Nat := (add_native big 10 1, count + 1)

/-- Embedding of `skip_zeros` on a span of decimal digit values (the
word-at-a-time fast path of the source compares eight characters against
packed zeros and is semantically the same skip). -/
def skip_zeros (p : List Nat) : List Nat := p.dropWhile (· == 0)

/-- Embedding of `is_truncated`: some digit of the span is nonzero. -/
def is_truncated (p : List Nat) : Bool := p.any (· != 0)

/-- Embedding of the inner digit loop of `parse_mantissa`: consume one digit
at a time while the limb group is not full (`counter < step`), digits remain,
and fewer than `max_digits` digits have been retained. Returns the remaining
span, `counter`, the limb `value`, and the updated digit count. -/
def parseDigitsLoop (step maxd : Nat) :
    List Nat → Nat → Nat → Nat → List Nat × Nat × Nat × Nat
  | [], counter, value, digits => ([], counter, value, digits)
  | d :: rest, counter, value, digits =>
    if counter < step ∧ digits < maxd then
      parseDigitsLoop step maxd rest (counter + 1) (parse_one_digit value d) (digits + 1)
    else (d :: rest, counter, value, digits)

/-- Embedding of one span-processing loop of `parse_mantissa` (the integer
and fraction spans run the same loop); `extra` is the other span consulted by
the truncation check — the whole fraction span during the integer loop, empty
during the fraction loop. Returns the big integer, the digit count, and
whether the loop returned early on the `digits == max_digits` path. The
`parse_eight_digits` bulk path is the `char`-only unrolling of
`parse_one_digit`; the wide-character instantiation embedded here does not
have it. On the state `digits > max_digits`, unreachable from the entry
invariant `digits <= max_digits`, the source loops forever; the embedding
returns instead. -/
def parseSpanLoop (step maxd : Nat) (extra : List Nat) :
    List Nat → Nat → Nat → Nat × Nat × Bool
  | [], big, digits => (big, digits, false)
  | d :: rest, big, digits =>
    let r := parseDigitsLoop step maxd (d :: rest) 0 0 digits
    let big1 := add_native big (powers_of_ten_uint64.getD r.2.1 0) r.2.2.1
    if r.2.2.2 = maxd then
      if is_truncated r.1 || is_truncated extra then
        let ru := round_up_bigint big1 r.2.2.2
        (ru.1, ru.2, true)
      else (big1, r.2.2.2, true)
    else
      if _h : r.1.length < (d :: rest).length then
        parseSpanLoop step maxd extra r.1 big1 r.2.2.2
      else (big1, r.2.2.2, false)
termination_by p => p.length

/-- Embedding of `parse_mantissa` (generic wide-character instantiation).
Digit spans are lists of digit values; `none` models a null `fraction.ptr`.
The big integer starts empty, as at the call site in `digit_comp`, and the
64-bit limb step is 19 digits. -/
def parse_mantissa (intDigits : List Nat) (fracDigits : Option (List Nat))
    (maxDigits : Nat) : Nat × Nat :=
  let step := 19
  let p := skip_zeros intDigits
  let r := parseSpanLoop step maxDigits (fracDigits.getD []) p 0 0
  if r.2.2 then (r.1, r.2.1)
  else
    match fracDigits with
    | none => (r.1, r.2.1)
    | some f =>
      let f1 := if r.2.1 = 0 then skip_zeros f else f
      let r2 := parseSpanLoop step maxDigits [] f1 r.1 r.2.1
      (r2.1, r2.2.1)

/-- Decimal value of a digit list (most significant digit first), folded
onto an initial accumulator. -/
def digitsVal (init : Nat) (l : List Nat) : Nat := l.foldl (fun a d => a * 10 + d) init

/-- Value of a digit list folded with the wrapping limb accumulator. -/
def digitsValM (init : Nat) (l : List Nat) : Nat := l.foldl parse_one_digit init

/-- Digit stream available to `parse_mantissa`: the integer span with
leading zeros skipped, then the fraction span; when the integer span is all
zeros, leading fraction zeros are skipped as well. -/
def availableDigits (intDigits : List Nat) (fracDigits : Option (List Nat)) : List Nat :=
  let i := skip_zeros intDigits
  if i = [] then skip_zeros (fracDigits.getD []) else i ++ fracDigits.getD []

/-- Embedding of `to_extended<T>` on the 64-bit IEEE bit pattern of the
value (the `bit_cast` is the identity on the bit-pattern model): denormal
when the exponent field is zero, else unbias the exponent field and OR in the
hidden bit. -/
def to_extended (fmt : binary_format) (bits : Nat) : adjusted_mantissa :=
  let bias : Int := fmt.mantissa_explicit_bits - fmt.minimum_exponent
  if bits &&& fmt.exponent_mask = 0 then
    { mantissa := bits &&& fmt.mantissa_mask, power2 := 1 - bias }
  else
    { mantissa := (bits &&& fmt.mantissa_mask) ||| fmt.hidden_bit_mask,
      power2 := (((bits &&& fmt.exponent_mask) >>> fmt.mantissa_explicit_bits : Nat) : Int)
        - bias }

/-- Embedding of `to_extended_halfway`: the midpoint between `b` and the next
float up — double the mantissa (wrapping like the 64-bit field), add one,
decrement `power2`. -/
def to_extended_halfway (fmt : binary_format) (bits : Nat) : adjusted_mantissa :=
  let am := to_extended fmt bits
  { mantissa := (am.mantissa <<< 1 + 1) % 2 ^ 64, power2 := am.power2 - 1 }

/-- Modelled from the spec: `to_float` — the external bit-pattern assembler
(spec, section 6) that combines the rounded mantissa and the biased exponent
field into the IEEE bit pattern. -/
def to_float (fmt : binary_format) (am : adjusted_mantissa) : Nat :=
  (am.power2.toNat <<< fmt.mantissa_explicit_bits) ||| am.mantissa

/-- Modelled from the spec: the big-integer collaborator's exact three-way
compare, returned as the sign -1 / 0 / +1. -/
def bigCompare (x y : Nat) : Int :=
  if x < y then -1 else if y < x then 1 else 0

/-- Embedding of the construction of the theoretical halfway point in
`negative_digit_comp`: round the approximation down to a representable `b`
and take the extended-precision halfway point above it. -/
def theorHalfway (fmt : binary_format) (am : adjusted_mantissa) : adjusted_mantissa :=
  to_extended_halfway fmt (to_float fmt (roundF fmt am (fun a shift => round_down a shift)))

/-- State computed by the scaling-and-compare prefix of
`negative_digit_comp`: the halfway point, the two scaled big integers, and
the exact comparison. -/
structure NegCompState where
  theor : adjusted_mantissa
  real_digits : Nat
  theor_digits : Nat
  ord : Int
deriving DecidableEq, Repr

/-- Embedding of the scaling-and-compare prefix of `negative_digit_comp`:
scale the halfway mantissa by `5^(-e)` (when nonzero) and then scale by the
power-of-two difference `pow2_exp = theor_exp - real_exp` — the theoretical
digits when it is positive, the real digits when it is negative — and
exactly compare. -/
def negative_digit_comp_core (fmt : binary_format) (bigmant : Nat)
    (am : adjusted_mantissa) (exponent : Int) : NegCompState :=
  let theor := theorHalfway fmt am
  let pow2_exp := theor.power2 - exponent
  let pow5_exp := (-exponent).toNat
  let theor_digits := if pow5_exp ≠ 0 then theor.mantissa * 5 ^ pow5_exp else theor.mantissa
  let scaled :=
    if 0 < pow2_exp then (bigmant, theor_digits * 2 ^ pow2_exp.toNat)
    else if pow2_exp < 0 then (bigmant * 2 ^ (-pow2_exp).toNat, theor_digits)
    else (bigmant, theor_digits)
  { theor := theor, real_digits := scaled.1, theor_digits := scaled.2,
    ord := bigCompare scaled.1 scaled.2 }

/-- Embedding of `negative_digit_comp`: direct nearest-even rounding of the
approximation by the exact comparison `ord`. -/
def negative_digit_comp (fmt : binary_format) (bigmant : Nat)
    (am : adjusted_mantissa) (exponent : Int) : adjusted_mantissa :=
  let ord := (negative_digit_comp_core fmt bigmant am exponent).ord
  roundF fmt am (fun a shift => round_nearest_tie_even a shift
    (fun is_odd _ _ => if 0 < ord then true else if ord < 0 then false else is_odd))

theorem umul128_val (x y : Nat) (hx : x < 2 ^ 64) (hy : y < 2 ^ 64) :
    (umul128 x y).val = x * y := by
  obtain ⟨A, B, hA, hB, hxe⟩ : ∃ A B, A < 2 ^ 32 ∧ B < 2 ^ 32 ∧ x = A * 2 ^ 32 + B :=
    ⟨x / 2 ^ 32, x % 2 ^ 32, by omega, by omega, by omega⟩
  obtain ⟨C, D, hC, hD, hye⟩ : ∃ C D, C < 2 ^ 32 ∧ D < 2 ^ 32 ∧ y = C * 2 ^ 32 + D :=
    ⟨y / 2 ^ 32, y % 2 ^ 32, by omega, by omega, by omega⟩
  subst hxe hye
  simp only [umul128, umul64, uint128.val, Nat.shiftRight_eq_div_pow, Nat.shiftLeft_eq]
  have e1 : (A * 2 ^ 32 + B) / 2 ^ 32 % 2 ^ 32 = A := by omega
  have e2 : (A * 2 ^ 32 + B) % 2 ^ 32 = B := by omega
  have e3 : (C * 2 ^ 32 + D) / 2 ^ 32 % 2 ^ 32 = C := by omega
  have e4 : (C * 2 ^ 32 + D) % 2 ^ 32 = D := by omega
  rw [e1, e2, e3, e4]
  have hxy : (A * 2 ^ 32 + B) * (C * 2 ^ 32 + D)
      = A * C * 2 ^ 64 + A * D * 2 ^ 32 + B * C * 2 ^ 32 + B * D := by ring
  rw [hxy]
  have hAC : A * C ≤ (2 ^ 32 - 1) * (2 ^ 32 - 1) := Nat.mul_le_mul (by omega) (by omega)
  have hAD : A * D ≤ (2 ^ 32 - 1) * (2 ^ 32 - 1) := Nat.mul_le_mul (by omega) (by omega)
  have hBC : B * C ≤ (2 ^ 32 - 1) * (2 ^ 32 - 1) := Nat.mul_le_mul (by omega) (by omega)
  have hBD : B * D ≤ (2 ^ 32 - 1) * (2 ^ 32 - 1) := Nat.mul_le_mul (by omega) (by omega)
  omega

theorem umul128_low_lt (x y : Nat) : (umul128 x y).low < 2 ^ 64 := by
  simp only [umul128]
  exact Nat.mod_lt _ (by norm_num)

theorem umul128_high_lt (x y : Nat) : (umul128 x y).high < 2 ^ 64 := by
  simp only [umul128]
  exact Nat.mod_lt _ (by norm_num)

theorem umul128_high_eq (x y : Nat) (hx : x < 2 ^ 64) (hy : y < 2 ^ 64) :
    (umul128 x y).high = x * y / 2 ^ 64 := by
  have hv := umul128_val x y hx hy
  have h1 := umul128_low_lt x y
  have h2 := umul128_high_lt x y
  unfold uint128.val at hv
  omega

theorem umul128_low_eq (x y : Nat) (hx : x < 2 ^ 64) (hy : y < 2 ^ 64) :
    (umul128 x y).low = x * y % 2 ^ 64 := by
  have hv := umul128_val x y hx hy
  have h1 := umul128_low_lt x y
  have h2 := umul128_high_lt x y
  unfold uint128.val at hv
  omega

theorem umul128_upper64_eq_high (x y : Nat) :
    umul128_upper64 x y = (umul128 x y).high := rfl

theorem umul128_upper64_eq (x y : Nat) (hx : x < 2 ^ 64) (hy : y < 2 ^ 64) :
    umul128_upper64 x y = x * y / 2 ^ 64 := by
  rw [umul128_upper64_eq_high, umul128_high_eq x y hx hy]

theorem umul128_upper64_lt (x y : Nat) : umul128_upper64 x y < 2 ^ 64 := by
  rw [umul128_upper64_eq_high]; exact umul128_high_lt x y

theorem addAssign_val (a : uint128) (n : Nat) (_hh : a.high < 2 ^ 64)
    (hl : a.low < 2 ^ 64) (hn : n < 2 ^ 64) :
    (a.addAssign n).val = (a.val + n) % 2 ^ 128 := by
  simp only [uint128.addAssign, uint128.val]
  split <;> omega

/-- C7: the in-place addition `self += n` produces
`(high * 2^64 + low + n) mod 2^128`, carrying into `high` exactly when the
low 64-bit sum wraps; the carry-intrinsic branches agree with the manual
wrap-check branch on every input, and in particular
`{high: 0, low: 2^64-1} += 1` yields `{high: 1, low: 0}`. -/
theorem uint128_addAssign_correct (a : uint128) (n : Nat) (hh : a.high < 2 ^ 64)
    (hl : a.low < 2 ^ 64) (hn : n < 2 ^ 64) :
    (a.addAssign n).val = (a.val + n) % 2 ^ 128 ∧
    (2 ^ 64 ≤ a.low + n → (a.addAssign n).high = (a.high + 1) % 2 ^ 64) ∧
    (a.low + n < 2 ^ 64 → (a.addAssign n).high = a.high) ∧
    a.addAssign n = a.addAssignAddcll n ∧
    a.addAssign n = a.addAssignAddcarry n ∧
    (uint128.mk 0 (2 ^ 64 - 1)).addAssign 1 = uint128.mk 1 0 := by
  refine ⟨addAssign_val a n hh hl hn, ?_, ?_, ?_, ?_, by decide⟩
  · intro h
    simp only [uint128.addAssign]
    split <;> omega
  · intro h
    simp only [uint128.addAssign]
    split <;> omega
  · ext
    · simp only [uint128.addAssign, uint128.addAssignAddcll]
      split <;> omega
    · rfl
  · ext
    · simp only [uint128.addAssign, uint128.addAssignAddcarry]
      split <;> split <;> omega
    · rfl

theorem uint128_addAssign_correct_witness :
    ((uint128.mk 3 (2 ^ 64 - 2)).addAssign 5).val
      = ((uint128.mk 3 (2 ^ 64 - 2)).val + 5) % 2 ^ 128 :=
  (uint128_addAssign_correct (uint128.mk 3 (2 ^ 64 - 2)) 5 (by norm_num) (by norm_num)
    (by norm_num)).1

/-- C8: `umul128` computes the exact full 128-bit product
(`high * 2^64 + low = x * y`), the portable 32-bit decomposition agrees
bit-for-bit with the native `__int128` and ARM `__umulh` branches, and in
particular `umul128(2^64-1, 2) = {high: 1, low: 2^64-2}`. -/
theorem umul128_exact (x y : Nat) (hx : x < 2 ^ 64) (hy : y < 2 ^ 64) :
    (umul128 x y).high * 2 ^ 64 + (umul128 x y).low = x * y ∧
    umul128 x y = umul128Native x y ∧
    umul128 x y = umul128Arm x y ∧
    umul128 (2 ^ 64 - 1) 2 = uint128.mk 1 (2 ^ 64 - 2) := by
  have hv := umul128_val x y hx hy
  unfold uint128.val at hv
  refine ⟨hv, ?_, ?_, by decide⟩
  · ext
    · rw [umul128_high_eq x y hx hy]
      simp only [umul128Native, Nat.shiftRight_eq_div_pow]
      have : x * y < 2 ^ 128 := by
        calc x * y ≤ (2 ^ 64 - 1) * (2 ^ 64 - 1) := Nat.mul_le_mul (by omega) (by omega)
        _ < 2 ^ 128 := by norm_num
      omega
    · rw [umul128_low_eq x y hx hy]; rfl
  · ext
    · rw [umul128_high_eq x y hx hy]
      simp only [umul128Arm]
      have : x * y < 2 ^ 128 := by
        calc x * y ≤ (2 ^ 64 - 1) * (2 ^ 64 - 1) := Nat.mul_le_mul (by omega) (by omega)
        _ < 2 ^ 128 := by norm_num
      omega
    · rw [umul128_low_eq x y hx hy]; rfl

theorem umul128_exact_witness :
    (umul128 6700417 641).high * 2 ^ 64 + (umul128 6700417 641).low = 6700417 * 641 :=
  (umul128_exact 6700417 641 (by norm_num) (by norm_num)).1

/-- C6: `umul192_upper128 x y` equals the upper 128 bits of the exact 192-bit
product, i.e. `x * y / 2^64`, and it equals the carry-propagating sum of
`umul128(x, y.high)` and `umul128_upper64(x, y.low)` with no truncation. -/
theorem umul192_upper128_exact (x : Nat) (y : uint128) (hx : x < 2 ^ 64)
    (hyh : y.high < 2 ^ 64) (hyl : y.low < 2 ^ 64) :
    (umul192_upper128 x y).val = x * y.val / 2 ^ 64 ∧
    (umul192_upper128 x y).val = (umul128 x y.high).val + umul128_upper64 x y.low := by
  have hbh : x * y.high ≤ (2 ^ 64 - 1) * (2 ^ 64 - 1) := Nat.mul_le_mul (by omega) (by omega)
  have hbl : x * y.low ≤ (2 ^ 64 - 1) * (2 ^ 64 - 1) := Nat.mul_le_mul (by omega) (by omega)
  have hadd : (umul192_upper128 x y).val
      = (umul128 x y.high).val + umul128_upper64 x y.low := by
    unfold umul192_upper128
    rw [addAssign_val _ _ (umul128_high_lt x y.high) (umul128_low_lt x y.high)
      (umul128_upper64_lt x y.low)]
    apply Nat.mod_eq_of_lt
    have h1 : (umul128 x y.high).val = x * y.high := umul128_val x y.high hx hyh
    have h2 : umul128_upper64 x y.low = x * y.low / 2 ^ 64 :=
      umul128_upper64_eq x y.low hx hyl
    rw [h1, h2]
    omega
  refine ⟨?_, hadd⟩
  rw [hadd, umul128_val x y.high hx hyh, umul128_upper64_eq x y.low hx hyl]
  have hval : x * y.val = x * y.high * 2 ^ 64 + x * y.low := by
    unfold uint128.val; ring
  rw [hval]
  omega

theorem umul192_upper128_exact_witness :
    (umul192_upper128 (2 ^ 64 - 1) (uint128.mk (2 ^ 64 - 1) (2 ^ 64 - 1))).val
      = (2 ^ 64 - 1) * (uint128.mk (2 ^ 64 - 1) (2 ^ 64 - 1)).val / 2 ^ 64 :=
  (umul192_upper128_exact (2 ^ 64 - 1) (uint128.mk (2 ^ 64 - 1) (2 ^ 64 - 1))
    (by norm_num) (by norm_num) (by norm_num)).1

/-- C4: in the normal (non-denormal) regime `round` invokes the callback with
a shift of exactly `64 - explicit_bits - 1` and then applies precisely the
carry reset at `2^(explicit_bits+1)`, the hidden-bit mask, and the
overflow-to-infinity clamp described by the specification. -/
theorem round_normal_regime (fmt : binary_format) (am : adjusted_mantissa)
    (cb : adjusted_mantissa → Int → adjusted_mantissa)
    (heb : fmt.mantissa_explicit_bits < 63)
    (hnorm : -am.power2 < 64 - (fmt.mantissa_explicit_bits : Int) - 1) :
    roundF fmt am cb = roundNormalSpec fmt (cb am (64 - (fmt.mantissa_explicit_bits : Int) - 1)) := by
  unfold roundF roundNormalSpec
  rw [if_neg (by omega)]
  have h2 : (2 <<< fmt.mantissa_explicit_bits) % 2 ^ 64 = 2 ^ (fmt.mantissa_explicit_bits + 1) := by
    rw [Nat.shiftLeft_eq, Nat.mod_eq_of_lt]
    · ring
    · calc 2 * 2 ^ fmt.mantissa_explicit_bits = 2 ^ (fmt.mantissa_explicit_bits + 1) := by ring
        _ < 2 ^ 64 := Nat.pow_lt_pow_right (by norm_num) (by omega)
  rw [h2]

theorem round_normal_regime_witness :
    roundF fmt64 (adjusted_mantissa.mk (2 ^ 63) 1011) (fun a s => round_down a s)
      = roundNormalSpec fmt64
          (round_down (adjusted_mantissa.mk (2 ^ 63) 1011)
            (64 - (fmt64.mantissa_explicit_bits : Int) - 1)) :=
  round_normal_regime fmt64 (adjusted_mantissa.mk (2 ^ 63) 1011)
    (fun a s => round_down a s) (by decide) (by decide)

/-- C10: for every shift in `[0, 64]` both `round_nearest_tie_even` and
`round_down` are total, `power2` grows by exactly `shift`, the `shift == 64`
case is special-cased (mantissa replaced by 0, discard mask all ones) so no
64-bit value is shifted by 64 or more bits, and for `shift < 64` the mantissa
is shifted by exactly `shift` bits before the rounding increment. -/
theorem round_shift_total (am : adjusted_mantissa) (shift : Int)
    (cb : Bool → Bool → Bool → Bool) (h0 : 0 ≤ shift) (h64 : shift ≤ 64) :
    (round_nearest_tie_even am shift cb).power2 = am.power2 + shift ∧
    (round_down am shift).power2 = am.power2 + shift ∧
    (shift = 64 →
      rnteMask shift = 2 ^ 64 - 1 ∧
      (round_down am shift).mantissa = 0 ∧
      ((round_nearest_tie_even am shift cb).mantissa = 0 ∨
        (round_nearest_tie_even am shift cb).mantissa = 1)) ∧
    (shift < 64 →
      (round_down am shift).mantissa = am.mantissa >>> shift.toNat ∧
      ((round_nearest_tie_even am shift cb).mantissa = (am.mantissa >>> shift.toNat) % 2 ^ 64 ∨
        (round_nearest_tie_even am shift cb).mantissa
          = (am.mantissa >>> shift.toNat + 1) % 2 ^ 64)) := by
  refine ⟨rfl, rfl, ?_, ?_⟩
  · intro h
    subst h
    refine ⟨rfl, rfl, ?_⟩
    simp only [round_nearest_tie_even]
    split
    · split
      · right; rfl
      · left; rfl
    · simp_all
  · intro h
    have hne : shift ≠ 64 := by omega
    refine ⟨by simp [round_down, hne], ?_⟩
    simp only [round_nearest_tie_even, if_neg hne]
    split
    · right; rfl
    · left; simp

theorem round_shift_total_witness :
    (round_nearest_tie_even (adjusted_mantissa.mk 5 3) 64 (fun _ _ _ => true)).power2
      = 3 + 64 :=
  (round_shift_total (adjusted_mantissa.mk 5 3) 64 (fun _ _ _ => true)
    (by norm_num) (by norm_num)).1

theorem sciLoop10_inv (m : Nat) (e : Int) :
    (sciLoop10 m e).2 + Nat.log 10 (sciLoop10 m e).1 = e + Nat.log 10 m := by
  induction m using Nat.strong_induction_on generalizing e with
  | _ m ih =>
    rw [sciLoop10]
    split
    · rename_i h
      rw [ih (m / 10) (Nat.div_lt_self (by omega) (by norm_num)) (e + 1)]
      have hge : 1 ≤ Nat.log 10 m := by
        rw [← Nat.pow_le_iff_le_log (by norm_num) (by omega)]
        simpa using h
      rw [Nat.log_div_base]
      omega
    · rfl

theorem sciLoop100_inv (m : Nat) (e : Int) :
    (sciLoop100 m e).2 + Nat.log 10 (sciLoop100 m e).1 = e + Nat.log 10 m := by
  induction m using Nat.strong_induction_on generalizing e with
  | _ m ih =>
    rw [sciLoop100]
    split
    · rename_i h
      rw [ih (m / 100) (Nat.div_lt_self (by omega) (by norm_num)) (e + 2)]
      have hge : 2 ≤ Nat.log 10 m := by
        rw [← Nat.pow_le_iff_le_log (by norm_num) (by omega)]
        calc (10 : Nat) ^ 2 = 100 := by norm_num
          _ ≤ m := h
      have hdiv : m / 100 = m / 10 / 10 := by omega
      rw [hdiv, Nat.log_div_base, Nat.log_div_base]
      omega
    · rfl

theorem sciLoop10000_inv (m : Nat) (e : Int) :
    (sciLoop10000 m e).2 + Nat.log 10 (sciLoop10000 m e).1 = e + Nat.log 10 m := by
  induction m using Nat.strong_induction_on generalizing e with
  | _ m ih =>
    rw [sciLoop10000]
    split
    · rename_i h
      rw [ih (m / 10000) (Nat.div_lt_self (by omega) (by norm_num)) (e + 4)]
      have hge : 4 ≤ Nat.log 10 m := by
        rw [← Nat.pow_le_iff_le_log (by norm_num) (by omega)]
        calc (10 : Nat) ^ 4 = 10000 := by norm_num
          _ ≤ m := h
      have hdiv : m / 10000 = m / 10 / 10 / 10 / 10 := by omega
      rw [hdiv, Nat.log_div_base, Nat.log_div_base, Nat.log_div_base, Nat.log_div_base]
      omega
    · rfl

theorem sciLoop10_lt (m : Nat) (e : Int) : (sciLoop10 m e).1 < 10 := by
  induction m using Nat.strong_induction_on generalizing e with
  | _ m ih =>
    rw [sciLoop10]
    split
    · exact ih _ (Nat.div_lt_self (by omega) (by norm_num)) _
    · rename_i h
      simpa using by omega

theorem scientific_exponent_eq_log (m : Nat) (e : Int) :
    scientific_exponent m e = e + Nat.log 10 m := by
  simp only [scientific_exponent]
  have h1 := sciLoop10000_inv m e
  have h2 := sciLoop100_inv (sciLoop10000 m e).1 (sciLoop10000 m e).2
  have h3 := sciLoop10_inv (sciLoop100 (sciLoop10000 m e).1 (sciLoop10000 m e).2).1
    (sciLoop100 (sciLoop10000 m e).1 (sciLoop10000 m e).2).2
  have h4 := sciLoop10_lt (sciLoop100 (sciLoop10000 m e).1 (sciLoop10000 m e).2).1
    (sciLoop100 (sciLoop10000 m e).1 (sciLoop10000 m e).2).2
  have h5 : Nat.log 10
      (sciLoop10 (sciLoop100 (sciLoop10000 m e).1 (sciLoop10000 m e).2).1
        (sciLoop100 (sciLoop10000 m e).1 (sciLoop10000 m e).2).2).1 = 0 :=
    Nat.log_eq_zero_iff.2 (Or.inl h4)
  omega

/-- C9: `scientific_exponent` returns the decimal exponent plus the number of
decimal digits of the truncated mantissa minus one when the mantissa is at
least 10, returns the exponent unchanged when the mantissa is below 10, and
agrees with a plain one-digit-at-a-time divide loop (the 10000/100/10 jump
order does not matter). -/
theorem scientific_exponent_correct (m : Nat) (e : Int) :
    (10 ≤ m → scientific_exponent m e = e + (((Nat.digits 10 m).length - 1 : Nat) : Int)) ∧
    (m < 10 → scientific_exponent m e = e) ∧
    scientific_exponent m e = (sciLoop10 m e).2 := by
  refine ⟨?_, ?_, ?_⟩
  · intro h
    rw [scientific_exponent_eq_log, Nat.digits_len 10 m (by norm_num) (by omega)]
    simp
  · intro h
    rw [scientific_exponent_eq_log, Nat.log_eq_zero_iff.2 (Or.inl h)]
    simp
  · have h1 := sciLoop10_inv m e
    have h2 := sciLoop10_lt m e
    have h3 : Nat.log 10 (sciLoop10 m e).1 = 0 := Nat.log_eq_zero_iff.2 (Or.inl h2)
    rw [scientific_exponent_eq_log]
    omega

theorem scientific_exponent_correct_witness :
    scientific_exponent 12345 3 = 3 + (((Nat.digits 10 12345).length - 1 : Nat) : Int) ∧
    scientific_exponent 7 5 = 5 :=
  ⟨(scientific_exponent_correct 12345 3).1 (by norm_num),
   (scientific_exponent_correct 7 5).2.1 (by norm_num)⟩

theorem powers_of_ten_getD (i : Nat) (h : i ≤ 19) :
    powers_of_ten_uint64.getD i 0 = 10 ^ i := by
  interval_cases i <;> rfl

theorem digitsVal_cons (v d : Nat) (t : List Nat) :
    digitsVal v (d :: t) = digitsVal (v * 10 + d) t := rfl

theorem digitsValM_cons (v d : Nat) (t : List Nat) :
    digitsValM v (d :: t) = digitsValM (parse_one_digit v d) t := rfl

theorem digitsVal_append (v : Nat) (l1 l2 : List Nat) :
    digitsVal v (l1 ++ l2) = digitsVal (digitsVal v l1) l2 := List.foldl_append ..

theorem digitsValM_eq (l : List Nat) : ∀ value : Nat, (∀ d ∈ l, d < 10) →
    (value + 1) * 10 ^ l.length ≤ 2 ^ 64 →
    digitsValM value l = digitsVal value l ∧
      digitsVal value l < (value + 1) * 10 ^ l.length := by
  induction l with
  | nil =>
    intro value _ _
    refine ⟨rfl, ?_⟩
    simp [digitsVal]
  | cons d t ih =>
    intro value hl hb
    have hd : d < 10 := hl d (List.mem_cons_self d t)
    have hpow : (10 : Nat) ^ (d :: t).length = 10 * 10 ^ t.length := by
      rw [List.length_cons, pow_succ]; ring
    have hb1 : (value * 10 + d + 1) * 10 ^ t.length ≤ 2 ^ 64 := by
      calc (value * 10 + d + 1) * 10 ^ t.length ≤ (value + 1) * 10 * 10 ^ t.length :=
            Nat.mul_le_mul_right _ (by omega)
        _ = (value + 1) * 10 ^ (d :: t).length := by rw [hpow]; ring
        _ ≤ 2 ^ 64 := hb
    have hlt : value * 10 + d < 2 ^ 64 := by
      have h10 : (1 : Nat) ≤ 10 ^ t.length := Nat.one_le_pow _ _ (by norm_num)
      have := calc value * 10 + d + 1 ≤ (value * 10 + d + 1) * 10 ^ t.length :=
            Nat.le_mul_of_pos_right _ (by omega)
        _ ≤ 2 ^ 64 := hb1
      omega
    have hmod : parse_one_digit value d = value * 10 + d := Nat.mod_eq_of_lt hlt
    have ht := ih (value * 10 + d) (fun x hx => hl x (List.mem_cons_of_mem d hx)) hb1
    constructor
    · rw [digitsValM_cons, hmod, digitsVal_cons]
      exact ht.1
    · rw [digitsVal_cons]
      calc digitsVal (value * 10 + d) t < (value * 10 + d + 1) * 10 ^ t.length := ht.2
        _ ≤ (value + 1) * 10 * 10 ^ t.length := Nat.mul_le_mul_right _ (by omega)
        _ = (value + 1) * 10 ^ (d :: t).length := by rw [hpow]; ring

theorem digitsVal_eq_add (l : List Nat) : ∀ big : Nat,
    digitsVal big l = big * 10 ^ l.length + digitsVal 0 l := by
  induction l with
  | nil => intro big; simp [digitsVal]
  | cons d t ih =>
    intro big
    rw [digitsVal_cons, ih (big * 10 + d)]
    have h0 : digitsVal 0 (d :: t) = d * 10 ^ t.length + digitsVal 0 t := by
      rw [digitsVal_cons, show (0 : Nat) * 10 + d = d from by omega, ih d]
    rw [h0, List.length_cons, pow_succ]
    ring

theorem parseDigitsLoop_eq (step maxd : Nat) (p : List Nat) :
    ∀ counter value digits : Nat,
      parseDigitsLoop step maxd p counter value digits =
        (p.drop (min (step - counter) (min (maxd - digits) p.length)),
         counter + min (step - counter) (min (maxd - digits) p.length),
         digitsValM value (p.take (min (step - counter) (min (maxd - digits) p.length))),
         digits + min (step - counter) (min (maxd - digits) p.length)) := by
  induction p with
  | nil =>
    intro counter value digits
    simp [parseDigitsLoop, digitsValM]
  | cons d rest ih =>
    intro counter value digits
    simp only [parseDigitsLoop]
    split
    · rename_i hcond
      obtain ⟨h1, h2⟩ := hcond
      rw [ih (counter + 1) (parse_one_digit value d) (digits + 1)]
      have hc : min (step - counter) (min (maxd - digits) (d :: rest).length)
          = min (step - (counter + 1)) (min (maxd - (digits + 1)) rest.length) + 1 := by
        rw [List.length_cons]; omega
      rw [hc]
      generalize min (step - (counter + 1)) (min (maxd - (digits + 1)) rest.length) = k
      rw [List.drop_succ_cons, List.take_succ_cons, digitsValM_cons,
        show counter + 1 + k = counter + (k + 1) from by omega,
        show digits + 1 + k = digits + (k + 1) from by omega]
    · rename_i hcond
      push_neg at hcond
      have hc : min (step - counter) (min (maxd - digits) (d :: rest).length) = 0 := by
        rcases Nat.lt_or_ge counter step with h | h
        · have := hcond h; omega
        · omega
      rw [hc]
      simp [digitsValM]

theorem parseSpanLoop_spec (maxd : Nat) (extra : List Nat) :
    ∀ (n : Nat) (p : List Nat), p.length ≤ n → ∀ big digits : Nat,
      (∀ d ∈ p, d < 10) → digits < maxd →
      parseSpanLoop 19 maxd extra p big digits =
        (if maxd ≤ digits + p.length then
          if is_truncated (p.drop (maxd - digits)) || is_truncated extra then
            (digitsVal big (p.take (maxd - digits)) * 10 + 1, maxd + 1, true)
          else (digitsVal big (p.take (maxd - digits)), maxd, true)
        else (digitsVal big p, digits + p.length, false)) := by
  intro n
  induction n with
  | zero =>
    intro p hp big digits _ hlt
    have hpn : p = [] := List.length_eq_zero.mp (by omega)
    subst hpn
    rw [if_neg (by simp; omega)]
    simp [parseSpanLoop, digitsVal]
  | succ n ih =>
    intro p hp big digits hd hlt
    match p with
    | [] =>
      rw [if_neg (by simp; omega)]
      simp [parseSpanLoop, digitsVal]
    | d :: rest =>
      rw [parseSpanLoop, parseDigitsLoop_eq 19 maxd (d :: rest) 0 0 digits]
      simp only [Nat.sub_zero, Nat.zero_add]
      set c := min 19 (min (maxd - digits) (d :: rest).length) with hcdef
      have hLcons : (d :: rest).length = rest.length + 1 := List.length_cons d rest
      have hcles : c ≤ 19 := by omega
      have hclemaxd : c ≤ maxd - digits := by omega
      have hcleL : c ≤ (d :: rest).length := by omega
      have hcpos : 1 ≤ c := by omega
      have htake : ∀ dd ∈ (d :: rest).take c, dd < 10 :=
        fun dd hdd => hd dd ((List.take_sublist c (d :: rest)).subset hdd)
      have hlentake : ((d :: rest).take c).length = c := by
        rw [List.length_take]; omega
      have hvm := digitsValM_eq ((d :: rest).take c) 0 htake (by
        rw [hlentake]
        have hp1 : (10 : Nat) ^ c ≤ 10 ^ 19 := Nat.pow_le_pow_right (by norm_num) hcles
        have hp2 : (10 : Nat) ^ 19 ≤ 2 ^ 64 := by norm_num
        omega)
      have hbig1 : add_native big (powers_of_ten_uint64.getD c 0)
          (digitsValM 0 ((d :: rest).take c)) = digitsVal big ((d :: rest).take c) := by
        rw [powers_of_ten_getD c hcles, hvm.1, add_native,
          digitsVal_eq_add ((d :: rest).take c) big, hlentake]
      rw [hbig1]
      by_cases hstop : digits + c = maxd
      · rw [if_pos hstop, if_pos (show maxd ≤ digits + (d :: rest).length by omega)]
        rw [show maxd - digits = c from by omega, hstop]
        rfl
      · rw [if_neg hstop]
        by_cases hcL : c = (d :: rest).length
        · have hdrop : (d :: rest).drop c = [] := by
            rw [hcL]; exact List.drop_eq_nil_of_le le_rfl
          have htk : (d :: rest).take c = d :: rest := by
            rw [hcL]; exact List.take_of_length_le le_rfl
          rw [hdrop, htk]
          rw [dif_pos (by simp)]
          rw [if_neg (show ¬ maxd ≤ digits + (d :: rest).length by omega)]
          rw [show digits + c = digits + (d :: rest).length from by omega]
          rw [parseSpanLoop]
        · have hdroplen : ((d :: rest).drop c).length = (d :: rest).length - c :=
            List.length_drop c (d :: rest)
          rw [dif_pos (by rw [hdroplen]; omega)]
          rw [ih ((d :: rest).drop c) (by rw [hdroplen]; omega)
            (digitsVal big ((d :: rest).take c)) (digits + c)
            (fun dd hdd => hd dd ((List.drop_sublist c (d :: rest)).subset hdd))
            (by omega)]
          by_cases hrest : maxd ≤ digits + (d :: rest).length
          · rw [if_pos (show maxd ≤ digits + c + ((d :: rest).drop c).length from by
              rw [hdroplen]; omega), if_pos hrest]
            have hdd2 : ((d :: rest).drop c).drop (maxd - (digits + c))
                = (d :: rest).drop (maxd - digits) := by
              rw [List.drop_drop]
              congr 1
              omega
            have hdt : digitsVal (digitsVal big ((d :: rest).take c))
                (((d :: rest).drop c).take (maxd - (digits + c)))
                = digitsVal big ((d :: rest).take (maxd - digits)) := by
              rw [← digitsVal_append]
              congr 1
              rw [show maxd - digits = c + (maxd - (digits + c)) from by omega, List.take_add]
            rw [hdd2, hdt]
          · rw [if_neg (show ¬ maxd ≤ digits + c + ((d :: rest).drop c).length from by
              rw [hdroplen]; omega), if_neg hrest]
            rw [← digitsVal_append, List.take_append_drop]
            rw [show digits + c + ((d :: rest).drop c).length
              = digits + (d :: rest).length from by rw [hdroplen]; omega]

theorem is_truncated_append (l1 l2 : List Nat) :
    is_truncated (l1 ++ l2) = (is_truncated l1 || is_truncated l2) := by
  simp [is_truncated]

theorem is_truncated_nil : is_truncated [] = false := rfl

/-- C5: once `max_digits` decimal digits have been retained `parse_mantissa`
stops, scans every remaining digit (the rest of the integer span and all of
the fraction span) for a nonzero value, and performs exactly one extra
multiply-by-10-and-add-1 on the accumulator (counting one extra digit) iff
a nonzero digit remains; with no nonzero remaining digit the accumulator is
exactly the folded value of the retained digits after the final group fold. -/
theorem parse_mantissa_truncation (intDigits : List Nat) (fracDigits : Option (List Nat))
    (maxDigits : Nat) (hmax : 0 < maxDigits)
    (hint : ∀ d ∈ intDigits, d < 10)
    (hfrac : ∀ d ∈ fracDigits.getD [], d < 10)
    (hlen : maxDigits ≤ (availableDigits intDigits fracDigits).length) :
    parse_mantissa intDigits fracDigits maxDigits =
      (if is_truncated ((availableDigits intDigits fracDigits).drop maxDigits) then
        (digitsVal 0 ((availableDigits intDigits fracDigits).take maxDigits) * 10 + 1,
         maxDigits + 1)
      else (digitsVal 0 ((availableDigits intDigits fracDigits).take maxDigits), maxDigits)) := by
  have hskipint : ∀ d ∈ skip_zeros intDigits, d < 10 :=
    fun d hd => hint d ((List.dropWhile_sublist _).subset hd)
  simp only [parse_mantissa]
  rw [parseSpanLoop_spec maxDigits (fracDigits.getD []) (skip_zeros intDigits).length
    (skip_zeros intDigits) le_rfl 0 0 hskipint hmax]
  simp only [Nat.zero_add, Nat.sub_zero]
  by_cases hIlen : maxDigits ≤ (skip_zeros intDigits).length
  · -- max_digits is reached inside the integer span loop
    rw [if_pos hIlen]
    have hI : skip_zeros intDigits ≠ [] := by
      intro h
      rw [h] at hIlen
      simp at hIlen
      omega
    have havail : availableDigits intDigits fracDigits
        = skip_zeros intDigits ++ fracDigits.getD [] := by
      simp [availableDigits, hI]
    rw [havail, List.drop_append_of_le_length hIlen, List.take_append_of_le_length hIlen,
      is_truncated_append]
    cases hC : (is_truncated ((skip_zeros intDigits).drop maxDigits)
        || is_truncated (fracDigits.getD [])) <;> simp [hC]
  · -- the integer span runs out first
    rw [if_neg hIlen]
    cases fracDigits with
    | none =>
      exfalso
      rcases eq_or_ne (skip_zeros intDigits) [] with h | h
      · have havail : availableDigits intDigits none = [] := by
          simp only [availableDigits]
          rw [if_pos h]
          simp [skip_zeros]
        rw [havail] at hlen
        simp at hlen
        omega
      · have havail : availableDigits intDigits none = skip_zeros intDigits := by
          simp only [availableDigits]
          rw [if_neg h]
          simp
        rw [havail] at hlen
        omega
    | some f =>
      by_cases hI : skip_zeros intDigits = []
      · -- all integer digits were zeros: skip fraction zeros too
        have havail : availableDigits intDigits (some f) = skip_zeros f := by
          simp [availableDigits, hI]
        have hskf : ∀ d ∈ skip_zeros f, d < 10 := by
          intro d hd
          have hd2 : d ∈ f := (List.dropWhile_sublist _).subset hd
          exact hfrac d (by simpa using hd2)
        rw [havail] at hlen ⊢
        rw [hI]
        simp only [List.length_nil, Option.getD_some]
        norm_num
        simp only [show digitsVal 0 ([] : List Nat) = 0 from rfl]
        rw [parseSpanLoop_spec maxDigits [] (skip_zeros f).length (skip_zeros f) le_rfl 0 0
          hskf hmax]
        simp only [Nat.zero_add, Nat.sub_zero]
        rw [if_pos hlen, is_truncated_nil, Bool.or_false]
        cases hC : is_truncated ((skip_zeros f).drop maxDigits) <;> simp [hC]
      · -- the retained integer digits feed the fraction loop
        have havail : availableDigits intDigits (some f)
            = skip_zeros intDigits ++ f := by
          simp [availableDigits, hI]
        have hlenI : (skip_zeros intDigits).length ≠ 0 := by
          intro h
          exact hI (List.length_eq_zero.mp h)
        have hlen2 : maxDigits ≤ (skip_zeros intDigits).length + f.length := by
          rw [havail, List.length_append] at hlen
          omega
        have hf : ∀ d ∈ f, d < 10 := by
          intro d hd
          exact hfrac d (by simpa using hd)
        rw [havail]
        simp only []
        rw [if_neg hlenI]
        rw [parseSpanLoop_spec maxDigits [] f.length f le_rfl
          (digitsVal 0 (skip_zeros intDigits)) (skip_zeros intDigits).length hf (by omega)]
        rw [if_pos (by omega : maxDigits ≤ (skip_zeros intDigits).length + f.length),
          is_truncated_nil]
        have hdropA : (skip_zeros intDigits ++ f).drop maxDigits
            = f.drop (maxDigits - (skip_zeros intDigits).length) := by
          rw [List.drop_append_eq_append_drop,
            List.drop_eq_nil_of_le (by omega : (skip_zeros intDigits).length ≤ maxDigits),
            List.nil_append]
        have htakeA : digitsVal 0 ((skip_zeros intDigits ++ f).take maxDigits)
            = digitsVal (digitsVal 0 (skip_zeros intDigits))
                (f.take (maxDigits - (skip_zeros intDigits).length)) := by
          rw [List.take_append_eq_append_take,
            List.take_of_length_le (by omega : (skip_zeros intDigits).length ≤ maxDigits),
            digitsVal_append]
        rw [hdropA, htakeA]
        cases hC : is_truncated (f.drop (maxDigits - (skip_zeros intDigits).length)) <;>
          simp [hC]

theorem parse_mantissa_truncation_witness :
    parse_mantissa [1, 2, 3] (some [4, 5]) 4
      = (if is_truncated ((availableDigits [1, 2, 3] (some [4, 5])).drop 4) then
          (digitsVal 0 ((availableDigits [1, 2, 3] (some [4, 5])).take 4) * 10 + 1, 4 + 1)
        else (digitsVal 0 ((availableDigits [1, 2, 3] (some [4, 5])).take 4), 4)) :=
  parse_mantissa_truncation [1, 2, 3] (some [4, 5]) 4 (by norm_num) (by decide) (by decide)
    (by decide)

/-- C2 (counterexample): for the decimal 0.5 (big integer 5, decimal
exponent -1) with the matching approximation, the halfway point sits at
power-of-two exponent -54, strictly smaller than the decimal's power-of-two
exponent -1, yet the theoretical big integer (the smaller-exponent one) is
left unchanged — it is the real-digit big integer, whose exponent is the
larger of the two, that gets multiplied by `2^|Δ| = 2^53`. -/
theorem negative_scaling_counterexample :
    (negative_digit_comp_core fmt64 5 (adjusted_mantissa.mk (2 ^ 63) 1011) (-1)).theor.power2
      = -54 ∧
    ((-54 : Int) < -1) ∧
    (negative_digit_comp_core fmt64 5 (adjusted_mantissa.mk (2 ^ 63) 1011) (-1)).theor_digits
      = (2 ^ 53 + 1) * 5 ∧
    (negative_digit_comp_core fmt64 5 (adjusted_mantissa.mk (2 ^ 63) 1011) (-1)).theor_digits
      ≠ (2 ^ 53 + 1) * 5 * 2 ^ 53 ∧
    (negative_digit_comp_core fmt64 5 (adjusted_mantissa.mk (2 ^ 63) 1011) (-1)).real_digits
      = 5 * 2 ^ 53 := by
  refine ⟨by decide, by decide, by decide, by decide, by decide⟩

theorem negScale_spec (fmt : binary_format) (bigmant : Nat) (am : adjusted_mantissa)
    (e : Int) (he : e < 0) :
    (negative_digit_comp_core fmt bigmant am e).real_digits
      = bigmant * 2 ^ (e - min e (theorHalfway fmt am).power2).toNat ∧
    (negative_digit_comp_core fmt bigmant am e).theor_digits
      = ((theorHalfway fmt am).mantissa * 5 ^ (-e).toNat)
          * 2 ^ ((theorHalfway fmt am).power2 - min e (theorHalfway fmt am).power2).toNat ∧
    ((negative_digit_comp_core fmt bigmant am e).real_digits : ℚ)
        * (2 : ℚ) ^ min e (theorHalfway fmt am).power2
      = (bigmant : ℚ) * (2 : ℚ) ^ e ∧
    ((negative_digit_comp_core fmt bigmant am e).theor_digits : ℚ)
        * (2 : ℚ) ^ min e (theorHalfway fmt am).power2
      = (((theorHalfway fmt am).mantissa * 5 ^ (-e).toNat : Nat) : ℚ)
          * (2 : ℚ) ^ (theorHalfway fmt am).power2 := by
  have hpow5 : (-e).toNat ≠ 0 := by omega
  simp only [negative_digit_comp_core, if_pos hpow5]
  set f := (theorHalfway fmt am).power2 with hf
  set nm := (theorHalfway fmt am).mantissa with hn
  rcases lt_trichotomy (f - e) 0 with hneg | hzero | hpos
  · rw [if_neg (by omega), if_pos hneg]
    have hmin : min e f = f := by omega
    rw [hmin]
    refine ⟨?_, ?_, ?_, ?_⟩
    · rw [show (-(f - e)).toNat = (e - f).toNat from by omega]
    · rw [show (f - f).toNat = 0 from by omega]
      norm_num
    · push_cast
      rw [show (-(f - e)).toNat = (e - f).toNat from by omega,
        ← zpow_natCast (2 : ℚ) (e - f).toNat, Int.toNat_of_nonneg (by omega), mul_assoc,
        ← zpow_add₀ (by norm_num : (2 : ℚ) ≠ 0), show e - f + f = e from by omega]
    · rfl
  · rw [if_neg (by omega), if_neg (by omega)]
    have hmin : min e f = e := by omega
    have hfe : f = e := by omega
    rw [hmin]
    refine ⟨?_, ?_, ?_, ?_⟩
    · rw [show (e - e).toNat = 0 from by omega]
      norm_num
    · rw [show (f - e).toNat = 0 from by omega]
      norm_num
    · rfl
    · rw [hfe]
  · rw [if_pos hpos]
    have hmin : min e f = e := by omega
    rw [hmin]
    refine ⟨?_, ?_, ?_, ?_⟩
    · rw [show (e - e).toNat = 0 from by omega]
      norm_num
    · rfl
    · rfl
    · push_cast
      rw [mul_assoc, ← zpow_natCast (2 : ℚ) (f - e).toNat, Int.toNat_of_nonneg (by omega),
        ← zpow_add₀ (by norm_num : (2 : ℚ) ≠ 0), show f - e + e = f from by omega]

/-- C2 (amended): in the negative-exponent path, after the theoretical big
integer is scaled by `5^(-e)`, the big integer whose power-of-two exponent is
the LARGER of the two (Δ = theor exponent minus decimal exponent) is the one
multiplied by `2^|Δ|` while the other is left unchanged, so that at the
common scale 2 to the smaller exponent both big integers represent the same
binary magnitude before the exact compare. -/
theorem negative_scaling_correct (fmt : binary_format) (bigmant : Nat)
    (am : adjusted_mantissa) (e f : Int) (t5 : Nat) (he : e < 0)
    (hf : f = (negative_digit_comp_core fmt bigmant am e).theor.power2)
    (ht5 : t5 = (negative_digit_comp_core fmt bigmant am e).theor.mantissa * 5 ^ (-e).toNat) :
    (negative_digit_comp_core fmt bigmant am e).real_digits
      = bigmant * 2 ^ (e - min e f).toNat ∧
    (negative_digit_comp_core fmt bigmant am e).theor_digits
      = t5 * 2 ^ (f - min e f).toNat ∧
    ((negative_digit_comp_core fmt bigmant am e).real_digits : ℚ) * (2 : ℚ) ^ min e f
      = (bigmant : ℚ) * (2 : ℚ) ^ e ∧
    ((negative_digit_comp_core fmt bigmant am e).theor_digits : ℚ) * (2 : ℚ) ^ min e f
      = (t5 : ℚ) * (2 : ℚ) ^ f := by
  have hth : (negative_digit_comp_core fmt bigmant am e).theor = theorHalfway fmt am := rfl
  subst hf ht5
  rw [hth]
  exact negScale_spec fmt bigmant am e he

theorem negative_scaling_correct_witness :
    (negative_digit_comp_core fmt64 5 (adjusted_mantissa.mk (2 ^ 63) 1011) (-1)).real_digits
      = 5 * 2 ^ ((-1 : Int) - min (-1 : Int) (-54 : Int)).toNat :=
  (negative_scaling_correct fmt64 5 (adjusted_mantissa.mk (2 ^ 63) 1011) (-1) (-54)
    ((2 ^ 53 + 1) * 5) (by norm_num) (by decide) (by decide)).1

theorem bigCompare_pos_iff (x y : Nat) : 0 < bigCompare x y ↔ y < x := by
  unfold bigCompare
  split
  · rename_i h; omega
  · split
    · rename_i h1 h2; omega
    · rename_i h1 h2; omega

theorem bigCompare_eq_zero_iff (x y : Nat) : bigCompare x y = 0 ↔ x = y := by
  unfold bigCompare
  split
  · rename_i h; omega
  · split
    · rename_i h1 h2; omega
    · rename_i h1 h2; omega

theorem bigCompare_neg_iff (x y : Nat) : bigCompare x y < 0 ↔ x < y := by
  unfold bigCompare
  split
  · rename_i h; omega
  · split
    · rename_i h1 h2; omega
    · rename_i h1 h2; omega

theorem core_ord_eq (fmt : binary_format) (bigmant : Nat) (am : adjusted_mantissa) (e : Int) :
    (negative_digit_comp_core fmt bigmant am e).ord
      = bigCompare (negative_digit_comp_core fmt bigmant am e).real_digits
          (negative_digit_comp_core fmt bigmant am e).theor_digits := rfl

theorem core_ord_iff (fmt : binary_format) (bigmant : Nat) (am : adjusted_mantissa)
    (e : Int) (he : e < 0) :
    (0 < (negative_digit_comp_core fmt bigmant am e).ord ↔
      (bigmant : ℚ) * (10 : ℚ) ^ e
        > ((negative_digit_comp_core fmt bigmant am e).theor.mantissa : ℚ)
            * (2 : ℚ) ^ (negative_digit_comp_core fmt bigmant am e).theor.power2) ∧
    ((negative_digit_comp_core fmt bigmant am e).ord = 0 ↔
      (bigmant : ℚ) * (10 : ℚ) ^ e
        = ((negative_digit_comp_core fmt bigmant am e).theor.mantissa : ℚ)
            * (2 : ℚ) ^ (negative_digit_comp_core fmt bigmant am e).theor.power2) ∧
    ((negative_digit_comp_core fmt bigmant am e).ord < 0 ↔
      (bigmant : ℚ) * (10 : ℚ) ^ e
        < ((negative_digit_comp_core fmt bigmant am e).theor.mantissa : ℚ)
            * (2 : ℚ) ^ (negative_digit_comp_core fmt bigmant am e).theor.power2) := by
  obtain ⟨h1, h2, h3, h4⟩ := negScale_spec fmt bigmant am e he
  have hth : (negative_digit_comp_core fmt bigmant am e).theor = theorHalfway fmt am := rfl
  rw [hth, core_ord_eq]
  set R := (negative_digit_comp_core fmt bigmant am e).real_digits
  set T := (negative_digit_comp_core fmt bigmant am e).theor_digits
  set f := (theorHalfway fmt am).power2
  set nm := (theorHalfway fmt am).mantissa
  set m := min e f
  have h2pos : (0 : ℚ) < (2 : ℚ) ^ m := zpow_pos (by norm_num) m
  have h5pos : (0 : ℚ) < (5 : ℚ) ^ (-e) := zpow_pos (by norm_num) (-e)
  have hk : (((-e).toNat : ℤ)) = -e := Int.toNat_of_nonneg (by omega)
  have ht5q : ((nm * 5 ^ (-e).toNat : Nat) : ℚ) = (nm : ℚ) * (5 : ℚ) ^ (-e : ℤ) := by
    push_cast
    rw [← zpow_natCast (5 : ℚ) (-e).toNat, hk]
  have hv5 : (bigmant : ℚ) * (10 : ℚ) ^ e * (5 : ℚ) ^ (-e : ℤ)
      = (bigmant : ℚ) * (2 : ℚ) ^ e := by
    rw [show (10 : ℚ) = 2 * 5 from by norm_num, mul_zpow, ← mul_assoc, mul_assoc,
      mul_assoc, ← zpow_add₀ (by norm_num : (5 : ℚ) ≠ 0)]
    simp
  have hTR : ((T : ℚ) < (R : ℚ)) ↔
      ((nm : ℚ) * (2 : ℚ) ^ f * (5 : ℚ) ^ (-e : ℤ)
        < (bigmant : ℚ) * (10 : ℚ) ^ e * (5 : ℚ) ^ (-e : ℤ)) := by
    rw [hv5, show (nm : ℚ) * (2 : ℚ) ^ f * (5 : ℚ) ^ (-e : ℤ)
      = (nm : ℚ) * (5 : ℚ) ^ (-e : ℤ) * (2 : ℚ) ^ f from by ring, ← ht5q]
    constructor
    · intro h
      have hs := (mul_lt_mul_right h2pos).mpr h
      rw [h3, h4] at hs
      exact hs
    · intro h
      have hs : (T : ℚ) * (2 : ℚ) ^ m < (R : ℚ) * (2 : ℚ) ^ m := by
        rw [h3, h4]
        exact h
      exact (mul_lt_mul_right h2pos).mp hs
  have hRT : ((R : ℚ) < (T : ℚ)) ↔
      ((bigmant : ℚ) * (10 : ℚ) ^ e * (5 : ℚ) ^ (-e : ℤ)
        < (nm : ℚ) * (2 : ℚ) ^ f * (5 : ℚ) ^ (-e : ℤ)) := by
    rw [hv5, show (nm : ℚ) * (2 : ℚ) ^ f * (5 : ℚ) ^ (-e : ℤ)
      = (nm : ℚ) * (5 : ℚ) ^ (-e : ℤ) * (2 : ℚ) ^ f from by ring, ← ht5q]
    constructor
    · intro h
      have hs := (mul_lt_mul_right h2pos).mpr h
      rw [h3, h4] at hs
      exact hs
    · intro h
      have hs : (R : ℚ) * (2 : ℚ) ^ m < (T : ℚ) * (2 : ℚ) ^ m := by
        rw [h3, h4]
        exact h
      exact (mul_lt_mul_right h2pos).mp hs
  have hlt : (T < R) ↔ ((nm : ℚ) * (2 : ℚ) ^ f < (bigmant : ℚ) * (10 : ℚ) ^ e) := by
    rw [← Nat.cast_lt (α := ℚ), hTR]
    exact mul_lt_mul_right h5pos
  have hltrev : (R < T) ↔ ((bigmant : ℚ) * (10 : ℚ) ^ e < (nm : ℚ) * (2 : ℚ) ^ f) := by
    rw [← Nat.cast_lt (α := ℚ), hRT]
    exact mul_lt_mul_right h5pos
  refine ⟨?_, ?_, ?_⟩
  · rw [bigCompare_pos_iff, gt_iff_lt]
    exact hlt
  · rw [bigCompare_eq_zero_iff]
    constructor
    · intro h
      have ha : ¬ T < R := by omega
      have hb : ¬ R < T := by omega
      rw [hlt] at ha
      rw [hltrev] at hb
      exact le_antisymm (not_lt.mp ha) (not_lt.mp hb)
    · intro h
      have ha : ¬ T < R := by
        rw [hlt, ← h]
        exact lt_irrefl _
      have hb : ¬ R < T := by
        rw [hltrev, h]
        exact lt_irrefl _
      omega
  · rw [bigCompare_neg_iff]
    exact hltrev

/-- C3: in the negative-exponent path the rounding decision handed to
`round_nearest_tie_even` is exactly `(ord > 0) OR (ord == 0 AND is_odd)`, and
the exact comparison `ord` orders the decimal value `bigmant * 10^e` against
the theoretical halfway value `theor.mantissa * 2^theor.power2`: a decimal
value strictly above the halfway point always rounds up, strictly below
always rounds down, and an exact tie rounds up precisely when the shifted
mantissa is odd. -/
theorem negative_rounding_decision (fmt : binary_format) (bigmant : Nat)
    (am : adjusted_mantissa) (e : Int) (he : e < 0) :
    (negative_digit_comp fmt bigmant am e
      = roundF fmt am (fun a shift => round_nearest_tie_even a shift
          (fun is_odd _ _ =>
            decide (0 < (negative_digit_comp_core fmt bigmant am e).ord)
              || (decide ((negative_digit_comp_core fmt bigmant am e).ord = 0) && is_odd)))) ∧
    (0 < (negative_digit_comp_core fmt bigmant am e).ord ↔
      (bigmant : ℚ) * (10 : ℚ) ^ e
        > ((negative_digit_comp_core fmt bigmant am e).theor.mantissa : ℚ)
            * (2 : ℚ) ^ (negative_digit_comp_core fmt bigmant am e).theor.power2) ∧
    ((negative_digit_comp_core fmt bigmant am e).ord = 0 ↔
      (bigmant : ℚ) * (10 : ℚ) ^ e
        = ((negative_digit_comp_core fmt bigmant am e).theor.mantissa : ℚ)
            * (2 : ℚ) ^ (negative_digit_comp_core fmt bigmant am e).theor.power2) ∧
    ((negative_digit_comp_core fmt bigmant am e).ord < 0 ↔
      (bigmant : ℚ) * (10 : ℚ) ^ e
        < ((negative_digit_comp_core fmt bigmant am e).theor.mantissa : ℚ)
            * (2 : ℚ) ^ (negative_digit_comp_core fmt bigmant am e).theor.power2) := by
  obtain ⟨ha, hb, hc⟩ := core_ord_iff fmt bigmant am e he
  refine ⟨?_, ha, hb, hc⟩
  simp only [negative_digit_comp]
  congr 1
  funext a shift
  congr 1
  funext is_odd h1 h2
  rcases lt_trichotomy (negative_digit_comp_core fmt bigmant am e).ord 0 with h | h | h
  · rw [if_neg (by omega), if_pos h]
    simp [show ¬ (0 < (negative_digit_comp_core fmt bigmant am e).ord) from by omega,
      show (negative_digit_comp_core fmt bigmant am e).ord ≠ 0 from by omega]
  · rw [if_neg (by omega), if_neg (by omega)]
    simp [h]
  · rw [if_pos h]
    simp [h]

theorem negative_rounding_decision_witness :
    (0 < (negative_digit_comp_core fmt64 5 (adjusted_mantissa.mk (2 ^ 63) 1011) (-1)).ord ↔
      ((5 : Nat) : ℚ) * (10 : ℚ) ^ (-1 : Int)
        > ((negative_digit_comp_core fmt64 5 (adjusted_mantissa.mk (2 ^ 63) 1011)
              (-1)).theor.mantissa : ℚ)
            * (2 : ℚ) ^ (negative_digit_comp_core fmt64 5 (adjusted_mantissa.mk (2 ^ 63) 1011)
              (-1)).theor.power2) :=
  (negative_rounding_decision fmt64 5 (adjusted_mantissa.mk (2 ^ 63) 1011) (-1)
    (by norm_num)).2.1

end Charconv
